import Mathlib

/-!
Shallow embedding of `nicompiler_backend/src/instruction.rs`.

The source module defines three things:
* `Instruction` — a pair of an instruction type (`CONST`, `SINE`, `LINRAMP`)
  and a string-keyed argument dictionary (`InstrArgs = IndexMap<String, f64>`),
  validated once at construction (`Instruction::new` panics on a missing
  required key) and evaluated analytically over an array of time values
  (`eval_inplace`, `eval_point`);
* convenience constructors `new_const`, `new_linramp`, `new_sine`;
* `InstrBook` — an instruction plus placement metadata (`start_pos`,
  optional `(end_pos, keep_val)` end specification), with accessors
  `end_pos`, `eff_end_pos`, `dur` and an ordering keyed on `start_pos`.

Model choices: `f64` values become real numbers; the insertion-ordered
`IndexMap` becomes an association list whose `insert` overwrites the first
occurrence of an existing key in place and otherwise appends, matching
`IndexMap::insert` on the unique-key maps the source builds; a Rust panic
(`panic!`, `unwrap`, a failed `assert!`) becomes the `none` outcome of an
`Option`-valued function.
-/

namespace NICompiler

/-- `type InstrArgs = IndexMap<String, f64>`: the argument dictionary,
as an association list from key to value. -/
abbrev InstrArgs := List (String × ℝ)

/-- `IndexMap::get`: the value stored at the given key (first occurrence). -/
def InstrArgs.get : InstrArgs → String → Option ℝ
  | [], _ => none
  | (k2, v) :: rest, k => if k2 = k then some v else InstrArgs.get rest k

/-- `IndexMap::contains_key`: whether the key is present. -/
def InstrArgs.containsKey (args : InstrArgs) (k : String) : Bool :=
  (InstrArgs.get args k).isSome

/-- `IndexMap::insert`: overwrite the value at an existing key, keeping its
position; otherwise append the new binding at the end. -/
def InstrArgs.insert : InstrArgs → String → ℝ → InstrArgs
  | [], k, v => [(k, v)]
  | (k2, v2) :: rest, k, v =>
      if k2 = k then (k, v) :: rest else (k2, v2) :: InstrArgs.insert rest k v

/-- `enum InstrType { CONST, SINE, LINRAMP }`. -/
inductive InstrType where
  | CONST
  | SINE
  | LINRAMP
deriving DecidableEq

/-- `struct Instruction { instr_type: InstrType, args: InstrArgs }`. -/
structure Instruction where
  instr_type : InstrType
  args : InstrArgs

/-- The key lists `Instruction::new` passes to its `panic_no_key` closure,
one list per instruction type. -/
def requiredKeys : InstrType → List String
  | InstrType.CONST => ["value"]
  | InstrType.SINE => ["freq"]
  | InstrType.LINRAMP => ["start_val", "end_val", "start_time", "end_time"]

/-- `Instruction::new`: panics (`none`) when the argument dictionary lacks
a required key for the given type; otherwise stores type and arguments
unchanged. -/
def Instruction.new (instr_type : InstrType) (args : InstrArgs) : Option Instruction :=
  if (requiredKeys instr_type).all (fun k => InstrArgs.containsKey args k)
  then some { instr_type := instr_type, args := args }
  else none

/-- `Instruction::eval_inplace`: maps each time value of `t_arr` to a sample.
`CONST` fills with `value`; `SINE` applies
`sin(2·π·freq·t + phase) · amplitude + offset` with defaults
`amplitude = 1`, `offset = 0`, `phase = 0` via `unwrap_or`; `LINRAMP` applies
`(t - start_time) · (end_val - start_val) / (end_time - start_time) + start_val`.
A required-key `unwrap` on a missing key panics (`none`). -/
noncomputable def Instruction.eval_inplace (i : Instruction) (t_arr : List ℝ) :
    Option (List ℝ) :=
  match i.instr_type with
  | InstrType.CONST =>
      match InstrArgs.get i.args "value" with
      | some value => some (t_arr.map (fun _ => value))
      | none => none
  | InstrType.SINE =>
      match InstrArgs.get i.args "freq" with
      | some freq =>
          let amplitude := (InstrArgs.get i.args "amplitude").getD 1
          let offset := (InstrArgs.get i.args "offset").getD 0
          let phase := (InstrArgs.get i.args "phase").getD 0
          some (t_arr.map (fun t =>
            Real.sin (2 * Real.pi * freq * t + phase) * amplitude + offset))
      | none => none
  | InstrType.LINRAMP =>
      match InstrArgs.get i.args "start_val", InstrArgs.get i.args "end_val",
            InstrArgs.get i.args "start_time", InstrArgs.get i.args "end_time" with
      | some start_val, some end_val, some t_start, some t_end =>
          some (t_arr.map (fun t =>
            (t - t_start) * (end_val - start_val) / (t_end - t_start) + start_val))
      | _, _, _, _ => none

/-- `Instruction::eval_point`: evaluate over the one-element array `[t]` and
read its only element. -/
noncomputable def Instruction.eval_point (i : Instruction) (t : ℝ) : Option ℝ :=
  Option.bind (Instruction.eval_inplace i [t]) List.head?

/-- `Instruction::new_const`: insert `"value"` and construct a `CONST`. -/
def Instruction.new_const (value : ℝ) : Option Instruction :=
  Instruction.new InstrType.CONST (InstrArgs.insert [] "value" value)

/-- `Instruction::new_linramp`: insert the four ramp keys and construct a
`LINRAMP`. -/
def Instruction.new_linramp (start_val end_val start_time end_time : ℝ) :
    Option Instruction :=
  Instruction.new InstrType.LINRAMP
    (InstrArgs.insert
      (InstrArgs.insert
        (InstrArgs.insert
          (InstrArgs.insert [] "start_val" start_val)
          "end_val" end_val)
        "start_time" start_time)
      "end_time" end_time)

/-- `Instruction::new_sine`: insert `"freq"`, then each optional parameter
that is `Some`, and construct a `SINE`. -/
def Instruction.new_sine (freq : ℝ) (amplitude phase dc_offset : Option ℝ) :
    Option Instruction :=
  let args0 := InstrArgs.insert [] "freq" freq
  let args1 := match amplitude with
    | some v => InstrArgs.insert args0 "amplitude" v
    | none => args0
  let args2 := match phase with
    | some v => InstrArgs.insert args1 "phase" v
    | none => args1
  let args3 := match dc_offset with
    | some v => InstrArgs.insert args2 "offset" v
    | none => args2
  Instruction.new InstrType.SINE args3

/-- `struct InstrBook { start_pos, end_spec, instr }`. -/
structure InstrBook where
  start_pos : ℕ
  end_spec : Option (ℕ × Bool)
  instr : Instruction

/-- `InstrBook::new`: when `end_spec` is `Some((end_pos, keep_val))`, asserts
`start_pos + 1 <= end_pos` (a failed assertion panics, `none`); then stores
the fields unchanged. -/
def InstrBook.new (start_pos : ℕ) (end_spec : Option (ℕ × Bool)) (func : Instruction) :
    Option InstrBook :=
  match end_spec with
  | some (end_pos, keep_val) =>
      if start_pos + 1 ≤ end_pos
      then some { start_pos := start_pos, end_spec := some (end_pos, keep_val), instr := func }
      else none
  | none => some { start_pos := start_pos, end_spec := none, instr := func }

/-- `InstrBook::end_pos`: the `end_pos` component of `end_spec`, if any. -/
def InstrBook.end_pos (b : InstrBook) : Option ℕ :=
  match b.end_spec with
  | some (end_pos, _) => some end_pos
  | none => none

/-- `InstrBook::eff_end_pos`: `end_pos` when specified, else `start_pos + 1`. -/
def InstrBook.eff_end_pos (b : InstrBook) : ℕ :=
  match InstrBook.end_pos b with
  | some end_pos => end_pos
  | none => b.start_pos + 1

/-- `InstrBook::dur`: `Some(end_pos - start_pos)` when specified, else `None`. -/
def InstrBook.dur (b : InstrBook) : Option ℕ :=
  match b.end_spec with
  | some (end_pos, _) => some (end_pos - b.start_pos)
  | none => none

/-- `Ord for InstrBook`: compare by `start_pos` only. -/
def InstrBook.cmp (a b : InstrBook) : Ordering :=
  compare a.start_pos b.start_pos

/-- `PartialEq for InstrBook`: equality of `start_pos` only. -/
def InstrBook.eq (a b : InstrBook) : Bool :=
  a.start_pos == b.start_pos

/-! ### Helper lemmas -/

/-- Looking a key up after an insert: the inserted value at the inserted key,
the old dictionary's answer elsewhere. -/
lemma InstrArgs.get_insert (args : InstrArgs) (k k2 : String) (v : ℝ) :
    InstrArgs.get (InstrArgs.insert args k v) k2 =
      if k = k2 then some v else InstrArgs.get args k2 := by
  induction args with
  | nil => simp [InstrArgs.insert, InstrArgs.get]
  | cons p rest ih =>
      obtain ⟨k3, v3⟩ := p
      by_cases h3 : k3 = k
      · subst h3
        by_cases h2 : k3 = k2
        · subst h2
          simp [InstrArgs.insert, InstrArgs.get]
        · simp [InstrArgs.insert, InstrArgs.get, h2]
      · by_cases h2 : k3 = k2
        · subst h2
          have hk : ¬ k = k3 := fun hkk => h3 hkk.symm
          simp [InstrArgs.insert, InstrArgs.get, h3, hk]
        · simp [InstrArgs.insert, InstrArgs.get, h3, h2, ih]

/-- `Instruction.new` succeeds exactly when every required key is present,
and then stores its inputs unchanged. -/
lemma Instruction.new_eq_some_iff (ty : InstrType) (args : InstrArgs) (i : Instruction) :
    Instruction.new ty args = some i ↔
      ((requiredKeys ty).all (fun k => InstrArgs.containsKey args k) = true ∧
        i = { instr_type := ty, args := args }) := by
  unfold Instruction.new
  split_ifs with h
  · simp [h, eq_comm]
  · simp [h]

/-- `Instruction.new` panics exactly when some required key is absent. -/
lemma Instruction.new_eq_none_iff (ty : InstrType) (args : InstrArgs) :
    Instruction.new ty args = none ↔
      ¬ (requiredKeys ty).all (fun k => InstrArgs.containsKey args k) = true := by
  unfold Instruction.new
  split_ifs with h <;> simp [h]

/-- When every required key of an instruction's type is present in its
dictionary, evaluation succeeds and the output has one sample per time value. -/
lemma Instruction.eval_inplace_total (i : Instruction)
    (h : (requiredKeys i.instr_type).all (fun k => InstrArgs.containsKey i.args k) = true)
    (t_arr : List ℝ) :
    ∃ out, Instruction.eval_inplace i t_arr = some out ∧ out.length = t_arr.length := by
  rcases i with ⟨ty, args⟩
  simp only [List.all_eq_true] at h
  cases ty
  case CONST =>
      have hv := h "value" (by simp [requiredKeys])
      rw [InstrArgs.containsKey, Option.isSome_iff_exists] at hv
      obtain ⟨value, hval⟩ := hv
      exact ⟨t_arr.map (fun _ => value),
        by simp [Instruction.eval_inplace, hval], by simp⟩
  case SINE =>
      have hv := h "freq" (by simp [requiredKeys])
      rw [InstrArgs.containsKey, Option.isSome_iff_exists] at hv
      obtain ⟨freq, hval⟩ := hv
      exact ⟨t_arr.map (fun t =>
          Real.sin (2 * Real.pi * freq * t + (InstrArgs.get args "phase").getD 0) *
            (InstrArgs.get args "amplitude").getD 1 +
          (InstrArgs.get args "offset").getD 0),
        by simp [Instruction.eval_inplace, hval], by simp⟩
  case LINRAMP =>
      have h1 := h "start_val" (by simp [requiredKeys])
      have h2 := h "end_val" (by simp [requiredKeys])
      have h3 := h "start_time" (by simp [requiredKeys])
      have h4 := h "end_time" (by simp [requiredKeys])
      rw [InstrArgs.containsKey, Option.isSome_iff_exists] at h1 h2 h3 h4
      obtain ⟨sv, hv1⟩ := h1
      obtain ⟨ev, hv2⟩ := h2
      obtain ⟨ts, hv3⟩ := h3
      obtain ⟨te, hv4⟩ := h4
      exact ⟨t_arr.map (fun t => (t - ts) * (ev - sv) / (te - ts) + sv),
        by simp [Instruction.eval_inplace, hv1, hv2, hv3, hv4], by simp⟩

/-! ### Claims -/

/-- Claim C1 (failing input): the source's `LINRAMP` evaluation has no
guard for `start_time == end_time` and no failure outcome at all — it
applies `(t - start_time) · (end_val - start_val) / (end_time - start_time)
+ start_val` unconditionally, dividing by `end_time - start_time = 0`
(IEEE `f64` would yield `Inf`/`NaN` here; this real-number model applies
Lean's division-by-zero convention). The claimed `DegenerateRamp` failure
does not exist in the code: the degenerate ramp evaluates to a sample. -/
theorem c1_linramp_degenerate_no_failure :
    Option.bind (Instruction.new_linramp 0 1 2 2)
        (fun instr => Instruction.eval_point instr 3) =
      some (((3 : ℝ) - 2) * (1 - 0) / (2 - 2) + 0) ∧
    ((2 : ℝ) - 2 = 0) := by
  constructor
  · simp [Instruction.new_linramp, InstrArgs.insert, Instruction.new,
      InstrArgs.containsKey, InstrArgs.get, requiredKeys,
      Instruction.eval_point, Instruction.eval_inplace]
  · norm_num

/-- Claim C2: a `LINRAMP` built from `start_val`, `end_val`, `start_time`,
`end_time` with `start_time ≠ end_time` evaluates every time value `t[i]` to
`start_val + (t[i] - start_time) · (end_val - start_val) / (end_time -
start_time)`, at every index; in particular `eval_point` returns
`start_val` at `start_time` and `end_val` at `end_time`. -/
theorem c2_linramp_eval_formula (sv ev ts te : ℝ) (h : ts ≠ te) :
    ∃ instr, Instruction.new_linramp sv ev ts te = some instr ∧
      (∀ t_arr : List ℝ, Instruction.eval_inplace instr t_arr =
          some (t_arr.map (fun t => sv + (t - ts) * (ev - sv) / (te - ts)))) ∧
      (∀ (t_arr : List ℝ) (i : ℕ) (t : ℝ), t_arr[i]? = some t →
          Option.bind (Instruction.eval_inplace instr t_arr) (fun out => out[i]?) =
            some (sv + (t - ts) * (ev - sv) / (te - ts))) ∧
      Instruction.eval_point instr ts = some sv ∧
      Instruction.eval_point instr te = some ev := by
  have hfun : (fun t : ℝ => (t - ts) * (ev - sv) / (te - ts) + sv)
      = fun t : ℝ => sv + (t - ts) * (ev - sv) / (te - ts) := funext fun t => by ring
  have heval : ∀ t_arr : List ℝ,
      Instruction.eval_inplace
        ⟨InstrType.LINRAMP,
          [("start_val", sv), ("end_val", ev), ("start_time", ts), ("end_time", te)]⟩
        t_arr
        = some (t_arr.map fun t => sv + (t - ts) * (ev - sv) / (te - ts)) := by
    intro t_arr
    rw [← hfun]
    simp [Instruction.eval_inplace, InstrArgs.get]
  have hne : te - ts ≠ 0 := sub_ne_zero.mpr (Ne.symm h)
  refine ⟨⟨InstrType.LINRAMP,
    [("start_val", sv), ("end_val", ev), ("start_time", ts), ("end_time", te)]⟩,
    ?_, heval, ?_, ?_, ?_⟩
  · simp [Instruction.new_linramp, InstrArgs.insert, Instruction.new,
      InstrArgs.containsKey, InstrArgs.get, requiredKeys]
  · intro t_arr i t hti
    rw [heval]
    simp [List.getElem?_map, hti]
  · simp only [Instruction.eval_point]
    rw [heval]
    simp
  · simp only [Instruction.eval_point]
    rw [heval]
    simp only [List.map_cons, List.map_nil, Option.some_bind, List.head?_cons,
      Option.some.injEq]
    field_simp

/-- Claim C2, witness: the spec's own example ramp from 0 to 10 over time
0 to 1. -/
theorem c2_linramp_eval_formula_witness :
    ∃ instr, Instruction.new_linramp 0 10 0 1 = some instr ∧
      (∀ t_arr : List ℝ, Instruction.eval_inplace instr t_arr =
          some (t_arr.map (fun t => 0 + (t - 0) * (10 - 0) / (1 - 0)))) ∧
      (∀ (t_arr : List ℝ) (i : ℕ) (t : ℝ), t_arr[i]? = some t →
          Option.bind (Instruction.eval_inplace instr t_arr) (fun out => out[i]?) =
            some (0 + (t - 0) * (10 - 0) / (1 - 0))) ∧
      Instruction.eval_point instr 0 = some 0 ∧
      Instruction.eval_point instr 1 = some 10 :=
  c2_linramp_eval_formula 0 10 0 1 zero_ne_one

/-- Claim C3: a `SINE` instruction whose dictionary holds `freq` evaluates
every time value `t` to `amplitude · sin(2·π·freq·t + phase) + offset`,
where `amplitude`, `phase` and `offset` fall back to the defaults 1, 0 and
0 exactly when absent from the dictionary. -/
theorem c3_sine_eval_formula (i : Instruction) (freq : ℝ)
    (hty : i.instr_type = InstrType.SINE)
    (hf : InstrArgs.get i.args "freq" = some freq) (t_arr : List ℝ) :
    Instruction.eval_inplace i t_arr = some (t_arr.map (fun t =>
      (InstrArgs.get i.args "amplitude").getD 1 *
        Real.sin (2 * Real.pi * freq * t + (InstrArgs.get i.args "phase").getD 0) +
      (InstrArgs.get i.args "offset").getD 0)) := by
  simp only [Instruction.eval_inplace, hty, hf]
  congr 1
  congr 1
  funext t
  ring

/-- Claim C3, witness: `Sine(freq=1)` with every optional key absent,
evaluated at time 0, yields the sample 0. -/
theorem c3_sine_eval_formula_witness :
    Instruction.eval_inplace ⟨InstrType.SINE, [("freq", 1)]⟩ [0] = some [0] := by
  have h := c3_sine_eval_formula ⟨InstrType.SINE, [("freq", 1)]⟩ 1 rfl
    (by simp [InstrArgs.get]) [0]
  simpa [InstrArgs.get] using h

/-- Claim C4: `Instruction::new` fails (`MissingArgument` panic) exactly when
a required key is absent — `value` for `CONST`, `freq` for `SINE`,
`start_val`/`end_val`/`start_time`/`end_time` for `LINRAMP`; on success it
stores type and arguments unchanged, and evaluation then runs no further
validation: it succeeds on every time array. -/
theorem c4_new_missing_key_iff (args : InstrArgs) :
    (Instruction.new InstrType.CONST args = none ↔
        ¬ InstrArgs.containsKey args "value" = true) ∧
    (Instruction.new InstrType.SINE args = none ↔
        ¬ InstrArgs.containsKey args "freq" = true) ∧
    (Instruction.new InstrType.LINRAMP args = none ↔
        ¬ (InstrArgs.containsKey args "start_val" = true ∧
           InstrArgs.containsKey args "end_val" = true ∧
           InstrArgs.containsKey args "start_time" = true ∧
           InstrArgs.containsKey args "end_time" = true)) ∧
    (∀ (ty : InstrType) (i : Instruction), Instruction.new ty args = some i →
        i.instr_type = ty ∧ i.args = args ∧
        ∀ t_arr : List ℝ, ∃ out, Instruction.eval_inplace i t_arr = some out ∧
          out.length = t_arr.length) := by
  refine ⟨?_, ?_, ?_, ?_⟩
  · rw [Instruction.new_eq_none_iff]
    exact not_congr (by simp [requiredKeys])
  · rw [Instruction.new_eq_none_iff]
    exact not_congr (by simp [requiredKeys])
  · rw [Instruction.new_eq_none_iff]
    exact not_congr (by simp [requiredKeys])
  · rintro ty i hi
    rw [Instruction.new_eq_some_iff] at hi
    obtain ⟨hall, rfl⟩ := hi
    exact ⟨rfl, rfl, Instruction.eval_inplace_total ⟨ty, args⟩ hall⟩

/-- Claim C5: `InstrBook::new(start, end_spec, instruction)` fails
(`InvalidInterval`, a panic in the source's assertion) if and only if the end
specification is closed, `Some((end_pos, keep_val))`, with `end_pos <= start_pos`;
construction with an open end specification (`None`) always succeeds. -/
theorem c5_instrbook_new_invalid_interval_iff (start_pos : ℕ)
    (end_spec : Option (ℕ × Bool)) (func : Instruction) :
    (InstrBook.new start_pos end_spec func = none ↔
      ∃ e k, end_spec = some (e, k) ∧ e ≤ start_pos) ∧
    InstrBook.new start_pos none func ≠ none := by
  constructor
  · rcases end_spec with _ | ⟨e, k⟩
    · simp [InstrBook.new]
    · simp only [InstrBook.new]
      split_ifs with h
      · simp only [reduceCtorEq, false_iff]
        rintro ⟨e2, k2, he, hle⟩
        simp only [Option.some.injEq, Prod.mk.injEq] at he
        obtain ⟨rfl, rfl⟩ := he
        omega
      · simp only [true_iff]
        exact ⟨e, k, rfl, by omega⟩
  · simp [InstrBook.new]

/-- Claim C6: `eff_end_pos` is the closed end position when the end
specification is `Some`, and `start_pos + 1` when it is `None`; in
particular an open record starting at tick 4 has effective end 5,
with no dependence on any total channel length. -/
theorem c6_eff_end_pos_spec (b : InstrBook) :
    (∀ e k, b.end_spec = some (e, k) → InstrBook.eff_end_pos b = e) ∧
    (b.end_spec = none → InstrBook.eff_end_pos b = b.start_pos + 1) ∧
    (∀ instr : Instruction, InstrBook.eff_end_pos ⟨4, none, instr⟩ = 5) := by
  refine ⟨?_, ?_, ?_⟩
  · rintro e k h
    simp [InstrBook.eff_end_pos, InstrBook.end_pos, h]
  · intro h
    simp [InstrBook.eff_end_pos, InstrBook.end_pos, h]
  · intro instr
    simp [InstrBook.eff_end_pos, InstrBook.end_pos]

/-- Claim C7: single-point evaluation agrees with evaluating the one-element
time array `[t]` and reading its only element, across all instruction
types and argument dictionaries (success and panic cases alike). -/
theorem c7_eval_point_singleton (i : Instruction) (t v : ℝ) :
    Instruction.eval_point i t = some v ↔
      Instruction.eval_inplace i [t] = some [v] := by
  rcases i with ⟨ty, args⟩
  cases ty
  case CONST =>
      rcases hg : InstrArgs.get args "value" with _ | value <;>
        simp [Instruction.eval_point, Instruction.eval_inplace, hg]
  case SINE =>
      rcases hg : InstrArgs.get args "freq" with _ | freq <;>
        simp [Instruction.eval_point, Instruction.eval_inplace, hg]
  case LINRAMP =>
      rcases h1 : InstrArgs.get args "start_val" with _ | sv <;>
        rcases h2 : InstrArgs.get args "end_val" with _ | ev <;>
        rcases h3 : InstrArgs.get args "start_time" with _ | ts <;>
        rcases h4 : InstrArgs.get args "end_time" with _ | te <;>
        simp [Instruction.eval_point, Instruction.eval_inplace, h1, h2, h3, h4]

/-- Claim C8: the ordering on interval records is the total order of their
start ticks and nothing else: `cmp` answers exactly as the start ticks
compare, and the equality predicate holds exactly on equal start ticks,
whatever the end specifications and instructions are. -/
theorem c8_instrbook_order_by_start (a b : InstrBook) :
    InstrBook.cmp a b = compare a.start_pos b.start_pos ∧
    (InstrBook.cmp a b = Ordering.lt ↔ a.start_pos < b.start_pos) ∧
    (InstrBook.cmp a b = Ordering.eq ↔ a.start_pos = b.start_pos) ∧
    (InstrBook.cmp a b = Ordering.gt ↔ b.start_pos < a.start_pos) ∧
    (InstrBook.eq a b = true ↔ a.start_pos = b.start_pos) := by
  refine ⟨rfl, ?_, ?_, ?_, ?_⟩
  · exact Nat.compare_eq_lt
  · exact Nat.compare_eq_eq
  · exact Nat.compare_eq_gt
  · simp [InstrBook.eq]

/-- Claim C9: once `Instruction::new` has succeeded, evaluation is total:
every required-key lookup succeeds, `eval_inplace` returns one sample per
time value on every time array, and `eval_point` returns a value at every
time — the missing-key panic branch is unreachable. -/
theorem c9_eval_total_after_new (ty : InstrType) (args : InstrArgs) (i : Instruction)
    (h : Instruction.new ty args = some i) :
    (∀ t_arr : List ℝ, ∃ out, Instruction.eval_inplace i t_arr = some out ∧
        out.length = t_arr.length) ∧
    (∀ t : ℝ, ∃ v, Instruction.eval_point i t = some v) := by
  rw [Instruction.new_eq_some_iff] at h
  obtain ⟨hall, rfl⟩ := h
  refine ⟨Instruction.eval_inplace_total ⟨ty, args⟩ hall, ?_⟩
  intro t
  obtain ⟨out, hout, hlen⟩ := Instruction.eval_inplace_total ⟨ty, args⟩ hall [t]
  rcases out with _ | ⟨v, rest⟩
  · simp at hlen
  · rcases rest with _ | ⟨w, rest2⟩
    · exact ⟨v, by simp [Instruction.eval_point, hout]⟩
    · simp at hlen

/-- Claim C9, witness: a constructed `CONST` instruction evaluates totally on
a two-element time array. -/
theorem c9_eval_total_after_new_witness :
    ∃ out, Instruction.eval_inplace ⟨InstrType.CONST, [("value", 2)]⟩ [0, 1] = some out ∧
      out.length = ([0, 1] : List ℝ).length :=
  (c9_eval_total_after_new InstrType.CONST [("value", 2)]
    ⟨InstrType.CONST, [("value", 2)]⟩
    (by simp [Instruction.new, InstrArgs.containsKey, InstrArgs.get, requiredKeys])).1
    [0, 1]

/-- Claim C10: the convenience constructors never fail: `new_const` and
`new_linramp` insert every required key for their type, and `new_sine`
inserts `freq` and then exactly those optional parameters passed as `Some` —
the resulting dictionary answers `freq` with the given frequency and each
optional key with exactly the optional argument (absent iff `None`). -/
theorem c10_convenience_constructors_total
    (value start_val end_val start_time end_time freq : ℝ)
    (amplitude phase dc_offset : Option ℝ) :
    (∃ i, Instruction.new_const value = some i) ∧
    (∃ i, Instruction.new_linramp start_val end_val start_time end_time = some i) ∧
    (∃ i, Instruction.new_sine freq amplitude phase dc_offset = some i ∧
        InstrArgs.get i.args "freq" = some freq ∧
        InstrArgs.get i.args "amplitude" = amplitude ∧
        InstrArgs.get i.args "phase" = phase ∧
        InstrArgs.get i.args "offset" = dc_offset) := by
  refine ⟨?_, ?_, ?_⟩
  · exact ⟨⟨InstrType.CONST, [("value", value)]⟩,
      by simp [Instruction.new_const, InstrArgs.insert, Instruction.new,
        InstrArgs.containsKey, InstrArgs.get, requiredKeys]⟩
  · exact ⟨⟨InstrType.LINRAMP,
      [("start_val", start_val), ("end_val", end_val),
       ("start_time", start_time), ("end_time", end_time)]⟩,
      by simp [Instruction.new_linramp, InstrArgs.insert, Instruction.new,
        InstrArgs.containsKey, InstrArgs.get, requiredKeys]⟩
  · rcases amplitude with _ | a <;> rcases phase with _ | p <;>
      rcases dc_offset with _ | d <;>
      simp [Instruction.new_sine, InstrArgs.insert, Instruction.new,
        InstrArgs.containsKey, InstrArgs.get, requiredKeys]

end NICompiler
